import Mathlib

/-!
Verification development for the truncated-Gaussian UMAU core
(`selection/truncated.py`).

The numeric primitives (`_CDF` from `selection.intervals`, `mpmath`'s
`npdf` and `erfinv`) are external to the core and are abstracted as a
record of functions `NormalOps`; every definition below is parametric in
such a record, exactly as the code is parametric in its numeric library.
Interval endpoints may be plus or minus infinity, so they live in an
extended-rational type `ER`; the IEEE behaviour of the floating-point
code on infinities (for example `inf - inf` being NaN, and `NaN != 0.0`
evaluating to true) is mirrored pointwise by the corresponding `ER`
operations, as noted at each definition.
-/

/-- Extended rationals: the value space of interval endpoints
(`-inf`, a finite value, `+inf`). -/
inductive ER : Type
  | ninf : ER
  | fin (q : ℚ) : ER
  | pinf : ER
deriving DecidableEq, Repr

namespace ER

/-- Boolean comparison `a <= b` on extended rationals (IEEE order on
non-NaN floats). -/
def ble : ER → ER → Bool
  | .ninf, _ => true
  | .fin _, .pinf => true
  | .pinf, .pinf => true
  | .pinf, _ => false
  | .fin _, .ninf => false
  | .fin p, .fin q => decide (p ≤ q)

/-- Boolean comparison `a < b`, defined from `ble` as in a total order. -/
def blt (a b : ER) : Bool := !(ble b a)

/-- Negation, used by the `negated` reflection of a distribution. -/
def neg : ER → ER
  | .ninf => .pinf
  | .pinf => .ninf
  | .fin q => .fin (-q)

/-- Subtraction of a finite value (`a - mu`); infinities are preserved. -/
def subQ : ER → ℚ → ER
  | .ninf, _ => .ninf
  | .pinf, _ => .pinf
  | .fin p, m => .fin (p - m)

/-- Division by a finite nonzero scale (`a / sigma`); the sign of `sigma`
decides whether infinities flip, as for floats.  All call sites have
`sigma > 0` (the spec requires a positive scale). -/
def divQ : ER → ℚ → ER
  | .ninf, s => if s < 0 then .pinf else .ninf
  | .pinf, s => if s < 0 then .ninf else .pinf
  | .fin p, s => .fin (p / s)

/-- Python `max(a, b)`: returns `b` exactly when `a <= b`. -/
def max2 (a b : ER) : ER := if ble a b then b else a

/-- Python `min(a, b)`: returns `a` exactly when `a <= b`. -/
def min2 (a b : ER) : ER := if ble a b then a else b

/-- The test `np.mean([a, b]) < 0` used by `quantile` to pick the tail
direction.  Mirrors IEEE arithmetic: the mean of `-inf` and `+inf` is
NaN and `NaN < 0` is false; a mean involving a single infinity has that
infinity's sign. -/
def meanNeg : ER → ER → Bool
  | .ninf, .pinf => false
  | .ninf, _ => true
  | .pinf, _ => false
  | .fin _, .ninf => true
  | .fin _, .pinf => false
  | .fin p, .fin q => decide ((p + q) / 2 < 0)

/-- The constructor's zero-width test `(b - a) == 0`.  For floats this
holds exactly when both endpoints are finite and equal: `inf - inf` is
NaN and `NaN == 0` is false, so a pair of equal infinite endpoints does
NOT count as zero width. -/
def zeroWidth : ER → ER → Bool
  | .fin p, .fin q => decide (p = q)
  | _, _ => false

end ER

/-- The external high-precision numeric primitives (spec section 4.1):
`tailMass a b` is the standard-normal mass between the cut points,
`density` the standard-normal density, `qnorm` the inverse CDF.  These
come from `selection.intervals._CDF` and `mpmath`, which are outside the
core; the whole development is parametric in them. -/
structure NormalOps where
  tailMass : ER → ER → ℚ
  density : ER → ℚ
  qnorm : ℚ → ℚ

/-- The failure conditions of the code: the two `ValueError`s of
`find_interval`, `max` of an empty sequence in `quantile`, an
out-of-range index, the unbound names `mu_ho` and `mu_bar` in `_UMAU`,
and exhaustion of the iteration cap added to the solver loops. -/
inductive Err : Type
  | unsupported : Err
  | ambiguous : Err
  | emptyMax : Err
  | indexErr : Err
  | nameHo : Err
  | nameBar : Err
  | fuel : Err
deriving DecidableEq, Repr

/-- Result of a fallible computation. -/
inductive Res (α : Type) : Type
  | ok (a : α) : Res α
  | err (e : Err) : Res α
deriving DecidableEq, Repr

/-- Regroup a flat endpoint list into consecutive pairs
(`reshape((-1, 2))`).  All modelled inputs have even length. -/
def toPairs : List ER → List (ER × ER)
  | a :: b :: rest => (a, b) :: toPairs rest
  | _ => []

/-- Flatten a pair list back to the endpoint list (`reshape(-1)`). -/
def flattenPairs : List (ER × ER) → List ER
  | [] => []
  | p :: ps => p.1 :: p.2 :: flattenPairs ps

/-- The sorting order used to model `np.sort` on endpoints. -/
def erle (a b : ER) : Prop := ER.ble a b = true

instance : DecidableRel erle := fun a b =>
  inferInstanceAs (Decidable (ER.ble a b = true))

instance : IsTotal ER erle := by
  constructor
  intro a b
  cases a <;> cases b <;> simp [erle, ER.ble]
  exact le_total _ _

instance : IsTrans ER erle := by
  constructor
  intro a b c
  cases a <;> cases b <;> cases c <;> simp [erle, ER.ble]
  exact fun h h2 => le_trans h h2

instance : IsAntisymm ER erle := by
  constructor
  intro a b
  cases a <;> cases b <;> simp [erle, ER.ble]
  exact fun h h2 => le_antisymm h h2

/-- The state of a `truncated_gaussian` object: the flat sorted cutoff
array, the two scalar parameters, and the derived caches `P` and `D`
kept in sync by `_mu_or_sigma_changed`. -/
structure TG : Type where
  cutoffs : List ER
  mu : ℚ
  sigma : ℚ
  P : List ℚ
  D : List (ℚ × ℚ)
deriving DecidableEq, Repr

/-- The `intervals` property: the cutoff array viewed as pairs. -/
def TG.intervals (tg : TG) : List (ER × ER) := toPairs tg.cutoffs

/-- The `P` cache: per-interval unnormalized mass
`_cdf((a-mu)/sigma, (b-mu)/sigma)`. -/
def computeP (ops : NormalOps) (cut : List ER) (mu sigma : ℚ) : List ℚ :=
  (toPairs cut).map
    (fun p => ops.tailMass ((p.1.subQ mu).divQ sigma) ((p.2.subQ mu).divQ sigma))

/-- The `D` cache: per-interval pair of boundary densities. -/
def computeD (ops : NormalOps) (cut : List ER) (mu sigma : ℚ) : List (ℚ × ℚ) :=
  (toPairs cut).map
    (fun p => (ops.density ((p.1.subQ mu).divQ sigma),
               ops.density ((p.2.subQ mu).divQ sigma)))

/-- The constructor `truncated_gaussian.__init__`: flatten, `np.sort`
the endpoints, regroup into pairs, drop the pairs whose width compares
equal to zero, store the flat result and initialize the caches. -/
def truncated_gaussian (ops : NormalOps) (flat : List ER) (mu sigma : ℚ) : TG :=
  let sorted := List.insertionSort erle flat
  let kept := (toPairs sorted).filter (fun p => !(ER.zeroWidth p.1 p.2))
  let cut := flattenPairs kept
  { cutoffs := cut, mu := mu, sigma := sigma,
    P := computeP ops cut mu sigma, D := computeD ops cut mu sigma }

/-- `set_mu`: update the mean and recompute both caches in full. -/
def TG.set_mu (ops : NormalOps) (m : ℚ) (tg : TG) : TG :=
  { cutoffs := tg.cutoffs, mu := m, sigma := tg.sigma,
    P := computeP ops tg.cutoffs m tg.sigma,
    D := computeD ops tg.cutoffs m tg.sigma }

/-- `set_sigma`: update the scale and recompute both caches in full. -/
def TG.set_sigma (ops : NormalOps) (s : ℚ) (tg : TG) : TG :=
  { cutoffs := tg.cutoffs, mu := tg.mu, sigma := s,
    P := computeP ops tg.cutoffs tg.mu s,
    D := computeD ops tg.cutoffs tg.mu s }

/-- The `delta` property: elementwise `D[:,0] - D[:,1] + mu * P`. -/
def TG.delta (tg : TG) : List ℚ :=
  List.zipWith (fun p d => d.1 - d.2 + tg.mu * p) tg.P tg.D

/-- Sum of `delta`, as consumed by the acceptance function. -/
def deltaSum (tg : TG) : ℚ := tg.delta.sum

/-- Indices of the intervals containing `x`
(`np.nonzero((x >= a) * (x < b))`), in ascending order, starting the
count at `i`. -/
def matchIdx (x : ℚ) : ℕ → List (ER × ER) → List ℕ
  | _, [] => []
  | i, p :: ps =>
    if ER.ble p.1 (.fin x) && ER.blt (.fin x) p.2
    then i :: matchIdx x (i + 1) ps
    else matchIdx x (i + 1) ps

/-- `find_interval`: index of the unique interval containing `x`; more
than one match is the disjointness `ValueError`, no match is the
not-in-support `ValueError` (the code tests in that order). -/
def TG.find_interval (tg : TG) (x : ℚ) : Res ℕ :=
  let k := matchIdx x 0 tg.intervals
  if 1 < k.length then .err .ambiguous
  else
    match k with
    | [] => .err .unsupported
    | i :: _ => .ok i

/-- `CDF`: masses of the intervals before the containing one, plus the
mass from that interval's lower bound to `x` (note: NOT divided by
`sigma`), normalized by the total mass. -/
def TG.CDF (ops : NormalOps) (tg : TG) (x : ℚ) : Res ℚ :=
  match tg.find_interval x with
  | .err e => .err e
  | .ok k =>
    match tg.intervals.get? k with
    | none => .err .indexErr
    | some p =>
      .ok (((tg.P.take k).sum
            + ops.tailMass (p.1.subQ tg.mu) (.fin (x - tg.mu))) / tg.P.sum)

/-- Cumulative sums `np.cumsum([0] + list(P))`: entry `j` is the sum of
the first `j` masses; the list has one more entry than `P`. -/
def cumsum0 (l : List ℚ) : List ℚ :=
  (List.range (l.length + 1)).map (fun j => (l.take j).sum)

/-- `quantile`: locate the interval whose cumulative bracket contains
`q * sum(P)` as the largest index with `Csum[k] < Psum * q` (Python
`max` of an empty sequence raises; an index equal to `len(intervals)`
raises `IndexError` on the subsequent subscript), then invert inside it
with the standard-normal quantile, growing from the left or the right
tail according to the sign of the interval midpoint.  Neither branch
divides by `sigma`. -/
def TG.quantile (ops : NormalOps) (tg : TG) (q : ℚ) : Res ℚ :=
  let Psum := tg.P.sum
  let Csum := cumsum0 tg.P
  let hits := (List.range Csum.length).filter
    (fun j => decide (Csum.getD j 0 < Psum * q))
  match hits.getLast? with
  | none => .err .emptyMax
  | some k =>
    let inc := Psum * q - Csum.getD k 0
    match tg.intervals.get? k with
    | none => .err .indexErr
    | some p =>
      if ER.meanNeg p.1 p.2 then
        .ok (tg.mu + ops.qnorm (ops.tailMass .ninf (p.1.subQ tg.mu) + inc))
      else
        .ok (tg.mu - ops.qnorm (ops.tailMass (p.1.subQ tg.mu) .pinf - inc))

/-- `right_endpoint`: `np.nan` (modelled as `none`) when the CDF at the
left endpoint already exceeds `alpha`, else the quantile of the
complementary probability. -/
def TG.right_endpoint (ops : NormalOps) (tg : TG) (le alpha : ℚ) :
    Res (Option ℚ) :=
  match tg.CDF ops le with
  | .err e => .err e
  | .ok alpha1 =>
    if alpha < alpha1 then .ok none
    else
      match tg.quantile ops (1 - (alpha - alpha1)) with
      | .err e => .err e
      | .ok v => .ok (some v)

/-- The intersections `(max(le, a), min(re, b))` kept when nonempty.
When `re` is the NaN sentinel, `min(NaN, b)` is NaN and the comparison
`NaN > lo` is false, so nothing is kept. -/
def validIntervals (tg : TG) (le : ℚ) (re : Option ℚ) : List (ER × ER) :=
  tg.intervals.filterMap (fun p =>
    let lo := ER.max2 (.fin le) p.1
    match re with
    | none => none
    | some r =>
      let hi := ER.min2 (.fin r) p.2
      if ER.blt lo hi then some (lo, hi) else none)

/-- The method `G`: constant `(1-alpha) * (sum(D0 - D1) + mu*sum(P))`,
then the `delta`-sum of a temporary distribution over the nonempty
intersections, or exactly `0` when there is none. -/
def TG.G (ops : NormalOps) (tg : TG) (le alpha : ℚ) : Res ℚ :=
  let const := (1 - alpha) *
    ((tg.D.map (fun d => d.1 - d.2)).sum + tg.mu * tg.P.sum)
  match tg.right_endpoint ops le alpha with
  | .err e => .err e
  | .ok re =>
    let valid := validIntervals tg le re
    if valid.isEmpty then .ok 0
    else .ok (deltaSum (truncated_gaussian ops (flattenPairs valid) tg.mu tg.sigma) - const)

/-- The method `dG`: `(right_endpoint - le) * density((le - mu)/sigma)`;
a NaN right endpoint makes the product NaN. -/
def TG.dG (ops : NormalOps) (tg : TG) (le alpha : ℚ) : Res (Option ℚ) :=
  match tg.right_endpoint ops le alpha with
  | .err e => .err e
  | .ok none => .ok none
  | .ok (some r) =>
    .ok (some ((r - le) * ops.density (.fin ((le - tg.mu) / tg.sigma))))

/-- Recursion of the batch `G` loop: the shared working copy `w` gets
its mean set to the item's `mu`, the method `G` is evaluated there, and
the (mutated) copy is threaded to the next item. -/
def batchGgo (ops : NormalOps) (alpha : ℚ) : List (ℚ × ℚ) → TG → Res (List ℚ)
  | [], _ => .ok []
  | pr :: rest, w =>
    let w1 := w.set_mu ops pr.2
    match w1.G ops pr.1 alpha with
    | .err e => .err e
    | .ok r =>
      match batchGgo ops alpha rest w1 with
      | .err e => .err e
      | .ok rs => .ok (r :: rs)

/-- The module-level function `G`: rebinds `tg` to
`truncated_gaussian(tg.intervals)` (a fresh copy, with the DEFAULT
parameters `mu = 0`, `sigma = 1`) and folds the method over
`zip(left_endpoints, mus)`.  The second component is the state of the
template after the call: the code never touches it. -/
def G (ops : NormalOps) (les mus : List ℚ) (alpha : ℚ) (tg : TG) :
    Res (List ℚ) × TG :=
  (batchGgo ops alpha (les.zip mus) (truncated_gaussian ops (flattenPairs tg.intervals) 0 1), tg)

/-- Recursion of the batch `dG` loop, same shape as `batchGgo`. -/
def batchDGgo (ops : NormalOps) (alpha : ℚ) :
    List (ℚ × ℚ) → TG → Res (List (Option ℚ))
  | [], _ => .ok []
  | pr :: rest, w =>
    let w1 := w.set_mu ops pr.2
    match w1.dG ops pr.1 alpha with
    | .err e => .err e
    | .ok r =>
      match batchDGgo ops alpha rest w1 with
      | .err e => .err e
      | .ok rs => .ok (r :: rs)

/-- The module-level function `dG`, same copy discipline as `G`. -/
def dG (ops : NormalOps) (les mus : List ℚ) (alpha : ℚ) (tg : TG) :
    Res (List (Option ℚ)) × TG :=
  (batchDGgo ops alpha (les.zip mus) (truncated_gaussian ops (flattenPairs tg.intervals) 0 1), tg)

/-- The bracket-low expansion loop of `_UMAU`: while `G < 0`, shift the
bracket down by 2 and set the working mean to the new low bound.  The
fuel argument is the iteration cap the spec asks any reimplementation
to add (the original loops forever if `G` never turns nonnegative). -/
def bracketLow (ops : NormalOps) (X alpha : ℚ) :
    ℕ → ℚ → ℚ → TG → Res (ℚ × ℚ × TG)
  | 0, _, _, _ => .err .fuel
  | fuel + 1, muLo, muHi, tg =>
    match tg.G ops X alpha with
    | .err e => .err e
    | .ok g =>
      if g < 0 then
        bracketLow ops X alpha fuel (muLo - 2) muLo (tg.set_mu ops (muLo - 2))
      else .ok (muLo, muHi, tg)

/-- The bisection loop of `_UMAU`.  The `muBar` argument is the value of
the Python variable `mu_bar`, unbound (`none`) until the body has run
once; returning with it still unbound is the latent `NameError` of the
final `return mu_bar`. -/
def bisect (ops : NormalOps) (X alpha tol : ℚ) :
    ℕ → ℚ → ℚ → TG → Option ℚ → Res ℚ
  | 0, _, _, _, _ => .err .fuel
  | fuel + 1, muLo, muHi, tg, muBar =>
    if tol < muHi - muLo then
      let mb := (1 / 2 : ℚ) * (muLo + muHi)
      let tg1 := tg.set_mu ops mb
      match tg1.G ops X alpha with
      | .err e => .err e
      | .ok g =>
        if g < 0 then bisect ops X alpha tol fuel muLo mb tg1 (some mb)
        else bisect ops X alpha tol fuel mb muHi tg1 (some mb)
    else
      match muBar with
      | some m => .ok m
      | none => .err .nameBar

/-- The solver `_UMAU`: fresh working copy with the template's intervals
and sigma (mean defaulted to 0), bracket-low expansion, then the
bracket-high phase.  The body of the bracket-high loop reads
`tg.mu = mu_ho` in the source: `mu_ho` is bound nowhere, so the first
time the loop is entered Python raises `NameError`; the loop can
therefore never complete an iteration, and entering it at all is the
error `Err.nameHo`.  Otherwise bisection runs on the bracket. -/
def umau (ops : NormalOps) (observed alpha : ℚ) (tg0 : TG)
    (muLoOpt muHiOpt : Option ℚ) (tol : ℚ) (fuel : ℕ) : Res ℚ :=
  let tg := truncated_gaussian ops (flattenPairs tg0.intervals) 0 tg0.sigma
  let X := observed
  let muLo := muLoOpt.getD X
  let muHi := muHiOpt.getD (X + 2)
  match bracketLow ops X alpha fuel muLo muHi (tg.set_mu ops muLo) with
  | .err e => .err e
  | .ok (muLo1, muHi1, tg1) =>
    let tg2 := tg1.set_mu ops muHi1
    match tg2.G ops X alpha with
    | .err e => .err e
    | .ok g =>
      if 0 < g then .err .nameHo
      else bisect ops X alpha tol fuel muLo1 muHi1 tg2 none

/-- A distribution object together with its lazily-built `_negated`
attribute (`none` while the attribute does not exist yet). -/
structure TGC : Type where
  tg : TG
  negCache : Option TG
deriving DecidableEq, Repr

/-- The `negated` property: on first access, build
`truncated_gaussian(-cutoffs[::-1], mu=self.mu, sigma=self.sigma)` and
store it; afterwards return the stored object unchanged. -/
def TGC.negated (ops : NormalOps) (s : TGC) : TG × TGC :=
  match s.negCache with
  | some n => (n, s)
  | none =>
    let n := truncated_gaussian ops ((s.tg.cutoffs.reverse).map ER.neg)
      s.tg.mu s.tg.sigma
    (n, { tg := s.tg, negCache := some n })

/-- `set_mu` on the object: updates the distribution state, and leaves
the `_negated` attribute exactly as it was. -/
def TGC.set_mu (ops : NormalOps) (m : ℚ) (s : TGC) : TGC :=
  { tg := s.tg.set_mu ops m, negCache := s.negCache }

/-- `set_sigma` on the object: likewise leaves `_negated` alone. -/
def TGC.set_sigma (ops : NormalOps) (sg : ℚ) (s : TGC) : TGC :=
  { tg := s.tg.set_sigma ops sg, negCache := s.negCache }

/-- The `twosided` factory:
`truncated_gaussian([(-inf, -|t|), (|t|, inf)], mu, sigma)`. -/
def twosided (ops : NormalOps) (thresh mu sigma : ℚ) : TG :=
  truncated_gaussian ops [.ninf, .fin (-|thresh|), .fin |thresh|, .pinf] mu sigma

/-- The mass that the spec assigns to the stretch from `a` to `b` under
the untruncated Gaussian with parameters `(mu, sigma)`:
`tailMass((a-mu)/sigma, (b-mu)/sigma)` (spec section 3, the definition
of `P[i]`). -/
def specMass (ops : NormalOps) (mu sigma : ℚ) (a b : ER) : ℚ :=
  ops.tailMass ((a.subQ mu).divQ sigma) ((b.subQ mu).divQ sigma)

/-- Spec-side CDF, following the words of the spec for claim C2: the sum
of the full masses of the intervals strictly before the containing one,
plus the partial mass from that interval's lower bound up to `x`, all
divided by the total mass - every mass being a mass of the Gaussian
with the distribution's own `(mu, sigma)`. -/
def cdfSpec (ops : NormalOps) (tg : TG) (x : ℚ) : Res ℚ :=
  match tg.find_interval x with
  | .err e => .err e
  | .ok k =>
    match tg.intervals.get? k with
    | none => .err .indexErr
    | some p =>
      .ok ((((tg.intervals.take k).map
              (fun r => specMass ops tg.mu tg.sigma r.1 r.2)).sum
            + specMass ops tg.mu tg.sigma p.1 (.fin x))
           / ((tg.intervals.map (fun r => specMass ops tg.mu tg.sigma r.1 r.2)).sum))

/-- Test primitives with unit mass on every nondegenerate stretch and a
constant quantile: enough structure to drive the acceptance function
through each of its branches on concrete inputs. -/
def ops1 : NormalOps :=
  { tailMass := fun a b => if a = b then 0 else 1,
    density := fun _ => 0,
    qnorm := fun _ => -5 }

/-- Concrete distribution over the single ray `[0, inf)`. -/
def tg1 : TG := truncated_gaussian ops1 [.fin 0, .pinf] 0 1

/-- An exact, strictly increasing CDF-like function on the extended
rationals with the right limits: `F0(x) = 1/2 + x / (2*(1+|x|))`. -/
def F0 : ER → ℚ
  | .ninf => 0
  | .pinf => 1
  | .fin q => 1 / 2 + q / (2 * (1 + |q|))

/-- The exact two-sided inverse of `F0` on finite points:
`qn0(p) = (2p-1) / (1 - |2p-1|)`. -/
def qn0 (p : ℚ) : ℚ := (2 * p - 1) / (1 - |2 * p - 1|)

/-- Exact test primitives built from `F0`: they satisfy all the laws the
spec demands of the numeric layer (difference form, limits 0 and 1,
strict monotonicity, exact inversion, reflection symmetry). -/
def ops0 : NormalOps :=
  { tailMass := fun a b => F0 b - F0 a,
    density := fun _ => 0,
    qnorm := qn0 }

/-- Inert primitives for claims that do not read the caches at all. -/
def trivOps : NormalOps :=
  { tailMass := fun _ _ => 0, density := fun _ => 0, qnorm := fun _ => 0 }

/-- Sequencing of fallible computations. -/
def Res.bind {α β : Type} : Res α → (α → Res β) → Res β
  | .ok a, f => f a
  | .err e, _ => .err e

namespace ER

theorem ble_refl (a : ER) : ble a a = true := by
  cases a <;> simp [ble]

theorem ble_trans {a b c : ER} (h1 : ble a b = true) (h2 : ble b c = true) :
    ble a c = true := by
  cases a <;> cases b <;> cases c <;> simp_all [ble]
  exact le_trans h1 h2

theorem ble_antisymm {a b : ER} (h1 : ble a b = true) (h2 : ble b a = true) :
    a = b := by
  cases a <;> cases b <;> simp_all [ble]
  exact le_antisymm h1 h2

theorem ble_of_blt {a b : ER} (h : blt a b = true) : ble a b = true := by
  cases a <;> cases b <;> simp_all [ble, blt]
  exact le_of_lt h

theorem not_ble_of_blt {a b : ER} (h : blt a b = true) : ¬(ble b a = true) := by
  simp only [blt, Bool.not_eq_true'] at h
  simp [h]

theorem blt_of_ble_of_ne {a b : ER} (h : ble a b = true) (hne : a ≠ b) :
    blt a b = true := by
  cases a <;> cases b <;> simp_all [ble, blt]
  exact lt_of_le_of_ne h (by simpa using hne)

theorem ble_blt_trans {a b c : ER} (h1 : ble a b = true) (h2 : blt b c = true) :
    blt a c = true := by
  cases a <;> cases b <;> cases c <;> simp_all [ble, blt]
  exact lt_of_le_of_lt h1 h2

theorem blt_ble_trans {a b c : ER} (h1 : blt a b = true) (h2 : ble b c = true) :
    blt a c = true := by
  cases a <;> cases b <;> cases c <;> simp_all [ble, blt]
  exact lt_of_lt_of_le h1 h2

theorem blt_subQ {a b : ER} (m : ℚ) (h : blt a b = true) :
    blt (a.subQ m) (b.subQ m) = true := by
  cases a <;> cases b <;> simp_all [subQ, ble, blt]

theorem divQ_one (a : ER) : a.divQ 1 = a := by
  cases a <;> simp [divQ]

end ER

section ConcreteEvaluation

attribute [local semireducible] Rat.add Rat.mul Rat.sub Rat.inv Rat.ofScientific

/-- Claim C1.  The spec describes the bracket-high expansion phase of
the UMAU solver as repeatedly shifting the bracket up by 2 until
`G <= 0` and then bisecting.  The code cannot do that: the loop body
executes `tg.mu = mu_ho`, and `mu_ho` is bound nowhere, so whenever the
loop condition `G > 0` holds on entry to the bracket-high phase the
solver raises `NameError` on the first iteration instead of expanding
the bracket. -/
theorem umau_bracket_high_name_fault (ops : NormalOps) (X alpha : ℚ) (tg0 : TG)
    (tol : ℚ) (fuel : ℕ) (lo hi : ℚ) (tg1 : TG) (g : ℚ)
    (hbl : bracketLow ops X alpha fuel X (X + 2)
      ((truncated_gaussian ops (flattenPairs tg0.intervals) 0 tg0.sigma).set_mu ops X)
      = .ok (lo, hi, tg1))
    (hg : (tg1.set_mu ops hi).G ops X alpha = .ok g)
    (hpos : 0 < g) :
    umau ops X alpha tg0 none none tol fuel = .err .nameHo := by
  unfold umau
  simp only [Option.getD_none]
  rw [hbl]
  dsimp only
  rw [hg]
  dsimp only
  rw [if_pos hpos]

/-- Witness for C1: a concrete run (observed 0, alpha 1/2, support
`[0, inf)`) in which the bracket-low phase exits at once, `G` is
positive at the initial high guess `observed + 2`, and the solver
faults. -/
theorem umau_bracket_high_name_fault_witness :
    umau ops1 0 (1 / 2) tg1 none none (1 / 100000000) 9 = .err .nameHo := by
  have h := umau_bracket_high_name_fault ops1 0 (1 / 2) tg1 (1 / 100000000) 9
    0 (0 + 2)
    ((truncated_gaussian ops1 (flattenPairs tg1.intervals) 0 tg1.sigma).set_mu ops1 0)
    1 (by decide) (by decide) (by norm_num)
  exact h

/-- Claim C3.  Whenever the CDF at the left endpoint already exceeds
`alpha`, `right_endpoint` returns the NaN sentinel rather than a number;
the sentinel produces no nonempty intersection; and whenever no
intersection is nonempty, `G` returns exactly 0. -/
theorem right_endpoint_sentinel_G_zero (ops : NormalOps) (tg : TG)
    (le alpha : ℚ) :
    (∀ c : ℚ, tg.CDF ops le = .ok c → alpha < c →
      tg.right_endpoint ops le alpha = .ok none)
    ∧ validIntervals tg le none = []
    ∧ (∀ re : Option ℚ, tg.right_endpoint ops le alpha = .ok re →
      validIntervals tg le re = [] → tg.G ops le alpha = .ok 0) := by
  refine ⟨?_, ?_, ?_⟩
  · intro c hc hlt
    unfold TG.right_endpoint
    rw [hc]
    dsimp only
    rw [if_pos hlt]
  · unfold validIntervals
    simp
  · intro re hre hempty
    unfold TG.G
    rw [hre]
    dsimp only
    rw [hempty]
    rfl

/-- Witness for C3: on the support `[0, inf)` with mean 0 and the unit
test masses, `CDF(1) = 1 > 1/2`, so `right_endpoint(1, 1/2)` is the
sentinel and `G(1, 1/2)` is exactly 0. -/
theorem right_endpoint_sentinel_G_zero_witness :
    tg1.right_endpoint ops1 1 (1 / 2) = .ok none
    ∧ tg1.G ops1 1 (1 / 2) = .ok 0 := by
  have h := right_endpoint_sentinel_G_zero ops1 tg1 1 (1 / 2)
  have hre : tg1.right_endpoint ops1 1 (1 / 2) = .ok none :=
    h.1 1 (by decide) (by norm_num)
  exact ⟨hre, h.2.2 none hre (h.2.1)⟩

/-- Containment of `x` in the pair at index `j` of the interval list,
the predicate tested elementwise by `find_interval`. -/
def containsAt (ps : List (ER × ER)) (j : ℕ) (x : ℚ) : Prop :=
  ∃ p, ps.get? j = some p
    ∧ ER.ble p.1 (.fin x) = true ∧ ER.blt (.fin x) p.2 = true

theorem matchIdx_shift (x : ℚ) :
    ∀ (ps : List (ER × ER)) (s : ℕ),
      matchIdx x (s + 1) ps = (matchIdx x s ps).map Nat.succ := by
  intro ps
  induction ps with
  | nil => intro s; rfl
  | cons p rest ih =>
    intro s
    unfold matchIdx
    by_cases hc : (ER.ble p.1 (.fin x) && ER.blt (.fin x) p.2) = true
    · rw [hc]
      simp only [if_true, List.map_cons]
      rw [ih (s + 1)]
    · rw [Bool.not_eq_true] at hc
      rw [hc]
      simp only [Bool.false_eq_true, if_false]
      rw [ih (s + 1)]

theorem mem_matchIdx (x : ℚ) :
    ∀ (ps : List (ER × ER)) (j : ℕ),
      j ∈ matchIdx x 0 ps ↔ containsAt ps j x := by
  intro ps
  induction ps with
  | nil => intro j; simp [matchIdx, containsAt]
  | cons p rest ih =>
    intro j
    unfold matchIdx
    rw [matchIdx_shift x rest 0]
    by_cases hc : (ER.ble p.1 (.fin x) && ER.blt (.fin x) p.2) = true
    · rw [hc]
      simp only [if_true, List.mem_cons, List.mem_map]
      constructor
      · rintro (rfl | ⟨j2, hj2, rfl⟩)
        · exact ⟨p, rfl, by simpa using hc⟩
        · obtain ⟨q, hq, h1, h2⟩ := (ih j2).mp hj2
          exact ⟨q, by simpa using hq, h1, h2⟩
      · rintro ⟨q, hq, h1, h2⟩
        cases j with
        | zero =>
          left; rfl
        | succ j2 =>
          right
          exact ⟨j2, (ih j2).mpr ⟨q, by simpa using hq, h1, h2⟩, rfl⟩
    · rw [Bool.not_eq_true] at hc
      rw [hc]
      simp only [Bool.false_eq_true, if_false, List.mem_map]
      constructor
      · rintro ⟨j2, hj2, rfl⟩
        obtain ⟨q, hq, h1, h2⟩ := (ih j2).mp hj2
        exact ⟨q, by simpa using hq, h1, h2⟩
      · rintro ⟨q, hq, h1, h2⟩
        cases j with
        | zero =>
          simp only [List.get?] at hq
          cases hq
          simp [h1, h2] at hc
        | succ j2 =>
          exact ⟨j2, (ih j2).mpr ⟨q, by simpa using hq, h1, h2⟩, rfl⟩

/-- Claim C5.  Membership in the match list computed by `find_interval`
is exactly the containment `a_i <= x < b_i`; with exactly one match the
index is returned; with no match the not-in-support error is raised;
with several matches the ambiguous-intervals error is raised. -/
theorem find_interval_cases (tg : TG) (x : ℚ) (i : ℕ) :
    (∀ j : ℕ, j ∈ matchIdx x 0 tg.intervals ↔ containsAt tg.intervals j x)
    ∧ (matchIdx x 0 tg.intervals = [i] → tg.find_interval x = .ok i)
    ∧ (matchIdx x 0 tg.intervals = [] →
        tg.find_interval x = .err .unsupported)
    ∧ (1 < (matchIdx x 0 tg.intervals).length →
        tg.find_interval x = .err .ambiguous) := by
  refine ⟨fun j => mem_matchIdx x tg.intervals j, ?_, ?_, ?_⟩
  · intro h
    unfold TG.find_interval
    rw [h]
    rfl
  · intro h
    unfold TG.find_interval
    rw [h]
    rfl
  · intro h
    unfold TG.find_interval
    rw [if_pos h]

/-- Witness for C5, the spec's concrete scenario 2: on the two-sided
support `(-inf,-1) against (1,inf)` the query point 0 is outside the
support and `find_interval(0)` raises the not-in-support error. -/
theorem find_interval_cases_witness :
    (truncated_gaussian trivOps [.ninf, .fin (-1), .fin 1, .pinf] 0 1).find_interval 0
      = .err .unsupported := by
  exact (find_interval_cases
    (truncated_gaussian trivOps [.ninf, .fin (-1), .fin 1, .pinf] 0 1) 0 0).2.2.1
    (by decide)

/-- Counterexample for C4.  Constructing from the overlapping intervals
`[(-1,1),(0,2)]` raises nothing: the endpoints are globally sorted into
the disjoint pairs `(-1,0)` and `(1,2)`, and the subsequent point query
at `0.5` - a point of the original overlap `(0,1)` - raises the
not-in-support error, not the ambiguous-intervals error the claim
requires. -/
theorem overlap_silently_resolved_cex :
    (truncated_gaussian trivOps [.fin (-1), .fin 1, .fin 0, .fin 2] 0 1).cutoffs
      = [.fin (-1), .fin 0, .fin 1, .fin 2]
    ∧ (truncated_gaussian trivOps [.fin (-1), .fin 1, .fin 0, .fin 2] 0 1).find_interval (1 / 2)
      = .err .unsupported
    ∧ ¬((truncated_gaussian trivOps [.fin (-1), .fin 1, .fin 0, .fin 2] 0 1).find_interval (1 / 2)
      = .err .ambiguous) := by
  refine ⟨by decide, by decide, by decide⟩

/-- Claim C4 (amended).  Constructing with the overlapping intervals
`[(-1,1),(0,2)]` succeeds, silently re-pairing the sorted endpoints into
`(-1,0)` and `(1,2)`; every point query inside `[0,1)` - which covers
the original overlap region - then raises the not-in-support error, and
never the ambiguous-intervals error. -/
theorem overlap_resolved_queries_unsupported (x : ℚ) (h0 : 0 ≤ x) (h1 : x < 1) :
    (truncated_gaussian trivOps [.fin (-1), .fin 1, .fin 0, .fin 2] 0 1).find_interval x
      = .err .unsupported := by
  have hiv : (truncated_gaussian trivOps [.fin (-1), .fin 1, .fin 0, .fin 2] 0 1).intervals
      = [(.fin (-1), .fin 0), (.fin 1, .fin 2)] := by decide
  unfold TG.find_interval
  rw [hiv]
  have c1 : (ER.ble (.fin (-1)) (.fin x) && ER.blt (.fin x) (.fin 0)) = false := by
    simp only [ER.ble, ER.blt, Bool.and_eq_false_iff, Bool.not_eq_true']
    right
    simpa using h0
  have c2 : (ER.ble (.fin 1) (.fin x) && ER.blt (.fin x) (.fin 2)) = false := by
    simp only [ER.ble, ER.blt, Bool.and_eq_false_iff]
    left
    simpa using not_le.mpr h1
  unfold matchIdx
  rw [c1]
  unfold matchIdx
  rw [c2]
  rfl

/-- Witness for the amended C4 at the concrete overlap point `0.5`. -/
theorem overlap_resolved_queries_unsupported_witness :
    (truncated_gaussian trivOps [.fin (-1), .fin 1, .fin 0, .fin 2] 0 1).find_interval (1 / 2)
      = .err .unsupported :=
  overlap_resolved_queries_unsupported (1 / 2) (by norm_num) (by norm_num)

/-- Claim C10.  The `negated` reflection is built on first access with
the parameters current at that moment and cached; `set_mu` and
`set_sigma` leave the cache untouched, so after a later parameter change
the cached object still carries the old `mu` and `sigma`, and a repeated
access keeps returning it. -/
theorem negated_cache_stale (ops : NormalOps) (s : TGC) (m sg : ℚ)
    (h : s.negCache = none) :
    (TGC.negated ops s).1.mu = s.tg.mu
    ∧ (TGC.negated ops s).1.sigma = s.tg.sigma
    ∧ (TGC.set_mu ops m (TGC.negated ops s).2).negCache
        = some (TGC.negated ops s).1
    ∧ (TGC.set_sigma ops sg (TGC.negated ops s).2).negCache
        = some (TGC.negated ops s).1
    ∧ (TGC.negated ops (TGC.set_mu ops m (TGC.negated ops s).2)).1
        = (TGC.negated ops s).1
    ∧ (TGC.set_mu ops m (TGC.negated ops s).2).tg.mu = m := by
  unfold TGC.negated TGC.set_mu TGC.set_sigma
  rw [h]
  simp [TG.set_mu, truncated_gaussian]

/-- Witness for C10: after accessing `negated` on a distribution with
`mu = 0` and then setting `mu = 5`, the cache still holds the old
reflection with `mu = 0` while the distribution itself has `mu = 5`. -/
theorem negated_cache_stale_witness :
    (TGC.negated ops1 ⟨tg1, none⟩).1.mu = 0
    ∧ (TGC.set_mu ops1 5 (TGC.negated ops1 ⟨tg1, none⟩).2).negCache
        = some (TGC.negated ops1 ⟨tg1, none⟩).1
    ∧ (TGC.set_mu ops1 5 (TGC.negated ops1 ⟨tg1, none⟩).2).tg.mu = 5 := by
  have h := negated_cache_stale ops1 ⟨tg1, none⟩ 5 3 rfl
  exact ⟨h.1, h.2.2.1, h.2.2.2.2.2⟩

/-- Mapping of a fallible function over a list, failing on the first
error; the specification form of the batch loops. -/
def mapRes {α β : Type} (f : α → Res β) : List α → Res (List β)
  | [] => .ok []
  | a :: l =>
    match f a with
    | .err e => .err e
    | .ok b =>
      match mapRes f l with
      | .err e => .err e
      | .ok bs => .ok (b :: bs)

theorem set_mu_set_mu (ops : NormalOps) (m m2 : ℚ) (tg : TG) :
    (tg.set_mu ops m2).set_mu ops m = tg.set_mu ops m := rfl

theorem batchGgo_eq_mapRes (ops : NormalOps) (alpha : ℚ) :
    ∀ (l : List (ℚ × ℚ)) (w : TG),
      batchGgo ops alpha l w
        = mapRes (fun pr => (w.set_mu ops pr.2).G ops pr.1 alpha) l := by
  intro l
  induction l with
  | nil => intro w; rfl
  | cons pr rest ih =>
    intro w
    unfold batchGgo mapRes
    dsimp only
    rw [ih (w.set_mu ops pr.2)]
    have hf : (fun qr : ℚ × ℚ =>
        (((w.set_mu ops pr.2).set_mu ops qr.2)).G ops qr.1 alpha)
        = fun qr : ℚ × ℚ => ((w.set_mu ops qr.2)).G ops qr.1 alpha := by
      funext qr
      rw [set_mu_set_mu]
    rw [hf]
    cases (w.set_mu ops pr.2).G ops pr.1 alpha <;>
      cases mapRes (fun qr : ℚ × ℚ => ((w.set_mu ops qr.2)).G ops qr.1 alpha) rest <;>
      rfl


theorem batchDGgo_eq_mapRes (ops : NormalOps) (alpha : ℚ) :
    ∀ (l : List (ℚ × ℚ)) (w : TG),
      batchDGgo ops alpha l w
        = mapRes (fun pr => (w.set_mu ops pr.2).dG ops pr.1 alpha) l := by
  intro l
  induction l with
  | nil => intro w; rfl
  | cons pr rest ih =>
    intro w
    unfold batchDGgo mapRes
    dsimp only
    rw [ih (w.set_mu ops pr.2)]
    have hf : (fun qr : ℚ × ℚ =>
        (((w.set_mu ops pr.2).set_mu ops qr.2)).dG ops qr.1 alpha)
        = fun qr : ℚ × ℚ => ((w.set_mu ops qr.2)).dG ops qr.1 alpha := by
      funext qr
      rw [set_mu_set_mu]
    rw [hf]
    cases (w.set_mu ops pr.2).dG ops pr.1 alpha <;>
      cases mapRes (fun qr : ℚ × ℚ => ((w.set_mu ops qr.2)).dG ops qr.1 alpha) rest <;>
      rfl


/-- Claim C7.  The batch `G` and `dG` functions return the template
distribution exactly as it was (its `mu`, `sigma`, intervals and caches
untouched), and the computed results depend on the template only through
its interval set: two templates with the same cutoffs - whatever their
`mu`, `sigma` or cache contents - give identical batch results, because
every per-pair evaluation runs against a fresh working copy built from
the intervals alone. -/
theorem batch_no_template_mutation (ops : NormalOps) (les mus : List ℚ)
    (alpha : ℚ) (tg tg2 : TG) (h : tg.cutoffs = tg2.cutoffs) :
    (G ops les mus alpha tg).2 = tg
    ∧ (dG ops les mus alpha tg).2 = tg
    ∧ (G ops les mus alpha tg).1 = (G ops les mus alpha tg2).1
    ∧ (dG ops les mus alpha tg).1 = (dG ops les mus alpha tg2).1 := by
  refine ⟨rfl, rfl, ?_, ?_⟩
  · unfold G
    simp only [TG.intervals, h]
  · unfold dG
    simp only [TG.intervals, h]

/-- Witness for C7: a template and a second distribution with the same
cutoffs but a different mean give the same batch results, and the
template comes back unchanged. -/
theorem batch_no_template_mutation_witness :
    (G ops1 [0] [7] (1 / 2) tg1).2 = tg1
    ∧ (dG ops1 [0] [7] (1 / 2) tg1).2 = tg1
    ∧ (G ops1 [0] [7] (1 / 2) tg1).1 = (G ops1 [0] [7] (1 / 2) (tg1.set_mu ops1 3)).1
    ∧ (dG ops1 [0] [7] (1 / 2) tg1).1
      = (dG ops1 [0] [7] (1 / 2) (tg1.set_mu ops1 3)).1 :=
  batch_no_template_mutation ops1 [0] [7] (1 / 2) tg1 (tg1.set_mu ops1 3) rfl

/-- Claim C9.  The working copy used by the batch `G` and `dG` functions
is `truncated_gaussian(tg.intervals)` with the DEFAULT parameters
`mu = 0`, `sigma = 1`; each per-pair evaluation therefore runs at
`sigma = 1` whatever the template's `sigma` is (the per-item `set_mu`
keeps `sigma = 1` too), and the results are exactly the per-pair method
values on that copy. -/
theorem batch_uses_default_sigma (ops : NormalOps) (les mus : List ℚ)
    (alpha : ℚ) (tg : TG) :
    (truncated_gaussian ops (flattenPairs tg.intervals) 0 1).sigma = 1
    ∧ (∀ m : ℚ,
        ((truncated_gaussian ops (flattenPairs tg.intervals) 0 1).set_mu ops m).sigma = 1)
    ∧ (G ops les mus alpha tg).1
      = mapRes (fun pr =>
          (((truncated_gaussian ops (flattenPairs tg.intervals) 0 1)).set_mu ops pr.2).G
            ops pr.1 alpha) (les.zip mus)
    ∧ (dG ops les mus alpha tg).1
      = mapRes (fun pr =>
          (((truncated_gaussian ops (flattenPairs tg.intervals) 0 1)).set_mu ops pr.2).dG
            ops pr.1 alpha) (les.zip mus) := by
  refine ⟨rfl, fun m => rfl, ?_, ?_⟩
  · unfold G
    exact batchGgo_eq_mapRes ops alpha (les.zip mus) _
  · unfold dG
    exact batchDGgo_eq_mapRes ops alpha (les.zip mus) _

theorem truncated_gaussian_mu (ops : NormalOps) (flat : List ER) (mu sigma : ℚ) :
    (truncated_gaussian ops flat mu sigma).mu = mu := rfl

theorem truncated_gaussian_sigma (ops : NormalOps) (flat : List ER) (mu sigma : ℚ) :
    (truncated_gaussian ops flat mu sigma).sigma = sigma := rfl

theorem truncated_gaussian_P (ops : NormalOps) (flat : List ER) (mu sigma : ℚ) :
    (truncated_gaussian ops flat mu sigma).P
      = (truncated_gaussian ops flat mu sigma).intervals.map
          (fun r => specMass ops mu sigma r.1 r.2) := by
  unfold truncated_gaussian TG.intervals computeP specMass
  dsimp only

theorem specMass_sigma_one (ops : NormalOps) (mu : ℚ) (a b : ER) :
    specMass ops mu 1 a b = ops.tailMass (a.subQ mu) (b.subQ mu) := by
  unfold specMass
  rw [ER.divQ_one, ER.divQ_one]

/-- Claim C2 (amended).  With `sigma = 1` the implemented CDF agrees
exactly with the spec formula (masses of the intervals before the
containing one, plus the partial mass up to `x`, normalized by the total
mass), and the spec's concrete scenario 1 holds: on
`(-inf,-1) against (1,inf)` with `mu = 0`, `sigma = 1`,
`CDF(2) = (tailMass(-inf,-1) + tailMass(1,2)) / (tailMass(-inf,-1) + tailMass(1,inf))`
for every choice of the numeric primitives.  For `sigma` different from
1 the implemented partial term is not divided by `sigma` while `P` is,
and the formula fails (see the counterexample). -/
theorem CDF_matches_spec_at_sigma_one (ops : NormalOps) (flat : List ER)
    (mu x : ℚ) :
    (truncated_gaussian ops flat mu 1).CDF ops x
      = cdfSpec ops (truncated_gaussian ops flat mu 1) x
    ∧ (truncated_gaussian ops [.ninf, .fin (-1), .fin 1, .pinf] 0 1).CDF ops 2
      = .ok ((ops.tailMass .ninf (.fin (-1)) + ops.tailMass (.fin 1) (.fin 2))
             / (ops.tailMass .ninf (.fin (-1)) + ops.tailMass (.fin 1) .pinf)) := by
  constructor
  · unfold TG.CDF cdfSpec
    cases hfi : (truncated_gaussian ops flat mu 1).find_interval x with
    | err e => rfl
    | ok k =>
      dsimp only
      cases hget : (truncated_gaussian ops flat mu 1).intervals.get? k with
      | none => rfl
      | some p =>
        dsimp only
        apply congrArg
        rw [truncated_gaussian_mu, truncated_gaussian_sigma, truncated_gaussian_P]
        rw [List.map_take]
        rw [specMass_sigma_one]
        rfl
  · have hcut : (truncated_gaussian ops [.ninf, .fin (-1), .fin 1, .pinf] 0 1).cutoffs
        = [.ninf, .fin (-1), .fin 1, .pinf] := by rfl
    have hfi : (truncated_gaussian ops [.ninf, .fin (-1), .fin 1, .pinf] 0 1).find_interval 2
        = .ok 1 := by
      unfold TG.find_interval TG.intervals
      rw [hcut]
      norm_num [matchIdx, toPairs, ER.ble, ER.blt]
    have hP : (truncated_gaussian ops [.ninf, .fin (-1), .fin 1, .pinf] 0 1).P
        = [ops.tailMass .ninf (.fin (-1)), ops.tailMass (.fin 1) .pinf] := by
      show computeP ops (truncated_gaussian ops [.ninf, .fin (-1), .fin 1, .pinf] 0 1).cutoffs 0 1 = _
      rw [hcut]
      norm_num [computeP, toPairs, ER.subQ, ER.divQ]
    have hget : (truncated_gaussian ops [.ninf, .fin (-1), .fin 1, .pinf] 0 1).intervals.get? 1
        = some (.fin 1, .pinf) := by
      unfold TG.intervals
      rw [hcut]
      rfl
    unfold TG.CDF
    rw [hfi]
    dsimp only
    rw [hget]
    dsimp only
    rw [hP, truncated_gaussian_mu]
    apply congrArg
    norm_num [ER.subQ]

/-- Counterexample for C2.  With `sigma = 2` on the single interval
`(0,2)` with `mu = 0` and exact test primitives, the code's `CDF(1)` is
1 while the spec formula gives `2/3`: the implemented partial term
`tailMass(a - mu, x - mu)` is not standardized by `sigma`, unlike the
interval masses `P`. -/
theorem CDF_sigma_cex :
    (truncated_gaussian ops0 [.fin 0, .fin 2] 0 2).CDF ops0 1 = .ok 1
    ∧ cdfSpec ops0 (truncated_gaussian ops0 [.fin 0, .fin 2] 0 2) 1 = .ok (2 / 3)
    ∧ ¬((truncated_gaussian ops0 [.fin 0, .fin 2] 0 2).CDF ops0 1
        = cdfSpec ops0 (truncated_gaussian ops0 [.fin 0, .fin 2] 0 2) 1) := by
  refine ⟨by decide, by decide, by decide⟩

theorem toPairs_flattenPairs : ∀ (ps : List (ER × ER)), toPairs (flattenPairs ps) = ps := by
  intro ps
  induction ps with
  | nil => rfl
  | cons p rest ih =>
    show (p.1, p.2) :: toPairs (flattenPairs rest) = p :: rest
    rw [ih]

theorem flattenPairs_toPairs_sublist : ∀ (l : List ER), (flattenPairs (toPairs l)).Sublist l
  | [] => by simp [toPairs, flattenPairs]
  | [a] => by simp [toPairs, flattenPairs]
  | a :: b :: rest => by
    show List.Sublist (a :: b :: flattenPairs (toPairs rest)) (a :: b :: rest)
    exact ((flattenPairs_toPairs_sublist rest).cons₂ b).cons₂ a

theorem flattenPairs_filter_sublist (pred : ER × ER → Bool) :
    ∀ (ps : List (ER × ER)), (flattenPairs (ps.filter pred)).Sublist (flattenPairs ps)
  | [] => by simp [flattenPairs]
  | p :: ps => by
    rw [List.filter_cons]
    by_cases h : pred p
    · rw [if_pos h]
      show List.Sublist (p.1 :: p.2 :: flattenPairs (ps.filter pred)) (p.1 :: p.2 :: flattenPairs ps)
      exact ((flattenPairs_filter_sublist pred ps).cons₂ p.2).cons₂ p.1
    · rw [if_neg h]
      exact ((flattenPairs_filter_sublist pred ps).cons p.2).cons p.1

/-- The stored cutoff array of every constructed distribution is sorted:
it is a sublist of the sorted endpoint array. -/
theorem cutoffs_sorted (ops : NormalOps) (flat : List ER) (mu sigma : ℚ) :
    List.Sorted erle (truncated_gaussian ops flat mu sigma).cutoffs := by
  have hsub : (truncated_gaussian ops flat mu sigma).cutoffs.Sublist
      (List.insertionSort erle flat) := by
    show (flattenPairs ((toPairs (List.insertionSort erle flat)).filter
      (fun p => !(ER.zeroWidth p.1 p.2)))).Sublist (List.insertionSort erle flat)
    exact (flattenPairs_filter_sublist _ _).trans (flattenPairs_toPairs_sublist _)
  exact List.Pairwise.sublist hsub (List.sorted_insertionSort erle flat)

theorem mem_flattenPairs_fst : ∀ {ps : List (ER × ER)} {q : ER × ER},
    q ∈ ps → q.1 ∈ flattenPairs ps := by
  intro ps
  induction ps with
  | nil => intro q h; cases h
  | cons p rest ih =>
    intro q h
    rcases List.mem_cons.mp h with rfl | h2
    · exact List.mem_cons_self _ _
    · exact List.mem_cons_of_mem _ (List.mem_cons_of_mem _ (ih h2))

/-- A sorted flat endpoint list yields pairs that are individually
ordered and chained: each upper endpoint precedes every later lower
endpoint. -/
theorem sorted_flatten_pairwise : ∀ (ps : List (ER × ER)),
    List.Sorted erle (flattenPairs ps) →
    (∀ p ∈ ps, erle p.1 p.2) ∧ List.Pairwise (fun p q : ER × ER => erle p.2 q.1) ps := by
  intro ps
  induction ps with
  | nil => intro _; exact ⟨by simp, List.Pairwise.nil⟩
  | cons p rest ih =>
    intro h
    rw [show flattenPairs (p :: rest) = p.1 :: p.2 :: flattenPairs rest from rfl] at h
    rw [List.sorted_cons, List.sorted_cons] at h
    obtain ⟨h1, h2, h3⟩ := h
    obtain ⟨ihw, ihp⟩ := ih h3
    refine ⟨?_, ?_⟩
    · intro q hq
      rcases List.mem_cons.mp hq with rfl | hq2
      · exact h1 q.2 (List.mem_cons_self _ _)
      · exact ihw q hq2
    · exact List.Pairwise.cons (fun q hq => h2 q.1 (mem_flattenPairs_fst hq)) ihp

theorem intervals_eq_filtered (ops : NormalOps) (flat : List ER) (mu sigma : ℚ) :
    (truncated_gaussian ops flat mu sigma).intervals
      = (toPairs (List.insertionSort erle flat)).filter
          (fun p => !(ER.zeroWidth p.1 p.2)) := by
  show toPairs (flattenPairs _) = _
  rw [toPairs_flattenPairs]

theorem flattenPairs_intervals (tg : TG) (h : ∃ ps, tg.cutoffs = flattenPairs ps) :
    flattenPairs tg.intervals = tg.cutoffs := by
  obtain ⟨ps, hps⟩ := h
  unfold TG.intervals
  rw [hps, toPairs_flattenPairs]

/-- Claim C6 (amended).  Every constructed distribution has a sorted
cutoff array; its intervals never have a width that compares equal to
zero (finite zero-width intervals are dropped, without any error - the
constructor is total); each interval has strictly positive width UNLESS
both its endpoints are the same infinity (such degenerate pairs come
from inputs like `[(0,inf),(1,inf)]`, have width `inf - inf = NaN != 0`,
and are kept); the upper endpoint of each interval precedes the lower
endpoint of every later one; and consequently no rational point lies in
two intervals. -/
theorem constructed_intervals_invariants (ops : NormalOps)
    (raw : List (ER × ER)) (mu sigma : ℚ) :
    List.Sorted erle (truncated_gaussian ops (flattenPairs raw) mu sigma).cutoffs
    ∧ (∀ p ∈ (truncated_gaussian ops (flattenPairs raw) mu sigma).intervals,
        ER.zeroWidth p.1 p.2 = false)
    ∧ (∀ p ∈ (truncated_gaussian ops (flattenPairs raw) mu sigma).intervals,
        ER.blt p.1 p.2 = true ∨ (p.1 = p.2 ∧ (p.1 = .ninf ∨ p.1 = .pinf)))
    ∧ List.Pairwise (fun p q : ER × ER => erle p.2 q.1)
        (truncated_gaussian ops (flattenPairs raw) mu sigma).intervals
    ∧ (∀ x : ℚ, List.Pairwise (fun p q : ER × ER =>
        ¬((ER.ble p.1 (.fin x) && ER.blt (.fin x) p.2) = true
          ∧ (ER.ble q.1 (.fin x) && ER.blt (.fin x) q.2) = true))
        (truncated_gaussian ops (flattenPairs raw) mu sigma).intervals) := by
  have hsorted := cutoffs_sorted ops (flattenPairs raw) mu sigma
  have hflat : flattenPairs (truncated_gaussian ops (flattenPairs raw) mu sigma).intervals
      = (truncated_gaussian ops (flattenPairs raw) mu sigma).cutoffs :=
    flattenPairs_intervals _ ⟨_, rfl⟩
  have hchain := sorted_flatten_pairwise
    (truncated_gaussian ops (flattenPairs raw) mu sigma).intervals
    (by rw [hflat]; exact hsorted)
  have hzw : ∀ p ∈ (truncated_gaussian ops (flattenPairs raw) mu sigma).intervals,
      ER.zeroWidth p.1 p.2 = false := by
    intro p hp
    rw [intervals_eq_filtered] at hp
    have := (List.mem_filter.mp hp).2
    simpa using this
  refine ⟨hsorted, hzw, ?_, hchain.2, ?_⟩
  · intro p hp
    have hle := hchain.1 p hp
    by_cases heq : p.1 = p.2
    · right
      refine ⟨heq, ?_⟩
      have hz := hzw p hp
      cases h1 : p.1 with
      | ninf => left; rfl
      | pinf => right; rfl
      | fin q =>
        rw [h1] at heq
        rw [ER.zeroWidth.eq_def] at hz
        rw [h1, ← heq] at hz
        simp at hz
    · left
      exact ER.blt_of_ble_of_ne hle heq
  · intro x
    refine List.Pairwise.imp ?_ hchain.2
    intro p q hpq hcontra
    obtain ⟨hp, hq⟩ := hcontra
    rw [Bool.and_eq_true] at hp hq
    have h1 : ER.ble p.2 (.fin x) = true := ER.ble_trans hpq hq.1
    exact ER.not_ble_of_blt hp.2 h1

/-- Counterexample for C6.  The raw interval list `[(0,inf),(1,inf)]` is
accepted by the constructor, but the globally sorted endpoints re-pair
into `(0,1)` and `(inf,inf)`: the degenerate pair of equal infinite
endpoints has width `inf - inf = NaN`, which does not compare equal to
0, so it is NOT dropped, and the resulting interval set contains an
interval without strictly positive width. -/
theorem degenerate_infinite_pair_kept_cex :
    (truncated_gaussian trivOps [.fin 0, .pinf, .fin 1, .pinf] 0 1).intervals
      = [(.fin 0, .fin 1), (.pinf, .pinf)]
    ∧ (.pinf, .pinf) ∈ (truncated_gaussian trivOps [.fin 0, .pinf, .fin 1, .pinf] 0 1).intervals
    ∧ ER.blt .pinf .pinf = false := by
  refine ⟨by decide, by decide, by decide⟩

theorem ble_subQ {a b : ER} (m : ℚ) (h : ER.ble a b = true) :
    ER.ble (a.subQ m) (b.subQ m) = true := by
  cases a <;> cases b <;> simp_all [ER.subQ, ER.ble]

/-- The exact test quantile inverts the exact test CDF on finite points. -/
theorem qn0_F0 (y : ℚ) : qn0 (F0 (.fin y)) = y := by
  show qn0 (1 / 2 + y / (2 * (1 + |y|))) = y
  unfold qn0
  have h1 : (0 : ℚ) < 1 + |y| := by positivity
  have h2 : 2 * (1 / 2 + y / (2 * (1 + |y|))) - 1 = y / (1 + |y|) := by
    field_simp
    ring
  rw [h2, abs_div, abs_of_pos h1]
  have h3 : 1 - |y| / (1 + |y|) = 1 / (1 + |y|) := by
    field_simp
  rw [h3]
  field_simp

/-- The exact test quantile has the two-sided reflection symmetry of the
true standard-normal quantile. -/
theorem qn0_reflect (p : ℚ) : qn0 (1 - p) = - qn0 p := by
  unfold qn0
  have h : 2 * (1 - p) - 1 = -(2 * p - 1) := by ring
  rw [h, abs_neg, neg_div]

/-- The exact test CDF is strictly monotone on the extended rationals. -/
theorem F0_lt {u v : ER} (h : ER.blt u v = true) : F0 u < F0 v := by
  cases u with
  | ninf =>
    cases v with
    | ninf => simp [ER.blt, ER.ble] at h
    | pinf => norm_num [F0]
    | fin q =>
      show (0 : ℚ) < 1 / 2 + q / (2 * (1 + |q|))
      have h1 : (0 : ℚ) < 1 + |q| := by positivity
      rw [show (1 : ℚ) / 2 + q / (2 * (1 + |q|)) = (1 + |q| + q) / (2 * (1 + |q|)) by
        field_simp]
      apply div_pos
      · nlinarith [neg_abs_le q]
      · linarith
  | pinf => cases v <;> simp [ER.blt, ER.ble] at h
  | fin p =>
    cases v with
    | ninf => simp [ER.blt, ER.ble] at h
    | pinf =>
      show (1 : ℚ) / 2 + p / (2 * (1 + |p|)) < 1
      have h1 : (0 : ℚ) < 1 + |p| := by positivity
      rw [show (1 : ℚ) / 2 + p / (2 * (1 + |p|)) = (1 + |p| + p) / (2 * (1 + |p|)) by
        field_simp]
      rw [div_lt_one (by linarith)]
      nlinarith [le_abs_self p]
    | fin q =>
      have hpq : p < q := by
        simpa [ER.blt, ER.ble] using h
      show (1 : ℚ) / 2 + p / (2 * (1 + |p|)) < 1 / 2 + q / (2 * (1 + |q|))
      have h1 : (0 : ℚ) < 1 + |p| := by positivity
      have h2 : (0 : ℚ) < 1 + |q| := by positivity
      have key : p / (2 * (1 + |p|)) < q / (2 * (1 + |q|)) := by
        rw [div_lt_div_iff₀ (by linarith) (by linarith)]
        rcases abs_cases p with ⟨hp, hp0⟩ | ⟨hp, hp0⟩ <;>
          rcases abs_cases q with ⟨hq, hq0⟩ | ⟨hq, hq0⟩ <;>
          rw [hp, hq] at * <;> nlinarith
      linarith

theorem getLast_filter_range (p : ℕ → Bool) :
    ∀ (n k : ℕ), k < n → p k = true → (∀ j, k < j → j < n → p j = false) →
    ((List.range n).filter p).getLast? = some k := by
  intro n
  induction n with
  | zero => intro k hk; exact absurd hk (Nat.not_lt_zero k)
  | succ m ih =>
    intro k hk hpk hafter
    rw [List.range_succ, List.filter_append]
    by_cases hkm : k = m
    · subst hkm
      simp only [List.filter_cons, List.filter_nil, hpk, if_true]
      exact List.getLast?_concat _
    · have hm : p m = false := hafter m (by omega) (by omega)
      simp only [List.filter_cons, List.filter_nil, hm]
      rw [if_neg (by simp), List.append_nil]
      exact ih k (by omega) hpk (fun j h1 h2 => hafter j h1 (by omega))

theorem cumsum0_length (l : List ℚ) : (cumsum0 l).length = l.length + 1 := by
  unfold cumsum0
  rw [List.length_map, List.length_range]

theorem cumsum0_getD (l : List ℚ) (j : ℕ) (hj : j < l.length + 1) :
    (cumsum0 l).getD j 0 = (l.take j).sum := by
  unfold cumsum0
  rw [List.getD_eq_getElem?_getD, List.getElem?_map, List.getElem?_range hj]
  rfl

theorem sum_take_mono : ∀ (l : List ℚ), (∀ a ∈ l, 0 ≤ a) →
    ∀ i j : ℕ, i ≤ j → (l.take i).sum ≤ (l.take j).sum := by
  intro l
  induction l with
  | nil => intro _ i j _; simp
  | cons a l ih =>
    intro hnn i j hij
    cases i with
    | zero =>
      simp only [List.take_zero, List.sum_nil]
      exact List.sum_nonneg (fun x hx => hnn x (List.take_subset j (a :: l) hx))
    | succ i2 =>
      cases j with
      | zero => omega
      | succ j2 =>
        simp only [List.take_succ_cons, List.sum_cons]
        have := ih (fun x hx => hnn x (List.mem_cons_of_mem a hx)) i2 j2 (by omega)
        linarith

theorem sum_take_succ (l : List ℚ) (k : ℕ) (x : ℚ) (h : l.get? k = some x) :
    (l.take (k + 1)).sum = (l.take k).sum + x := by
  rw [List.take_succ]
  rw [List.get?_eq_getElem?] at h
  rw [h]
  simp

theorem matchIdx_nil_of_none (x : ℚ) :
    ∀ (ps : List (ER × ER)) (s : ℕ),
      (∀ p ∈ ps, ¬((ER.ble p.1 (.fin x) && ER.blt (.fin x) p.2) = true)) →
      matchIdx x s ps = [] := by
  intro ps
  induction ps with
  | nil => intro s _; rfl
  | cons p rest ih =>
    intro s hnone
    unfold matchIdx
    have hp : (ER.ble p.1 (.fin x) && ER.blt (.fin x) p.2) = false := by
      have := hnone p (List.mem_cons_self _ _)
      exact Bool.not_eq_true _ |>.mp this
    rw [hp]
    simp only [Bool.false_eq_true, if_false]
    exact ih (s + 1) (fun q hq => hnone q (List.mem_cons_of_mem p hq))

theorem matchIdx_single (x : ℚ) :
    ∀ (ps : List (ER × ER)) (s k : ℕ) (pk : ER × ER),
      ps.get? k = some pk →
      (ER.ble pk.1 (.fin x) && ER.blt (.fin x) pk.2) = true →
      (∀ j pj, ps.get? j = some pj → j ≠ k →
        ¬((ER.ble pj.1 (.fin x) && ER.blt (.fin x) pj.2) = true)) →
      matchIdx x s ps = [s + k] := by
  intro ps
  induction ps with
  | nil =>
    intro s k pk hget
    simp [List.get?] at hget
  | cons p rest ih =>
    intro s k pk hget hc huniq
    cases k with
    | zero =>
      simp only [List.get?] at hget
      cases hget
      unfold matchIdx
      rw [hc]
      simp only [if_true]
      have hrest : matchIdx x (s + 1) rest = [] := by
        apply matchIdx_nil_of_none
        intro q hq
        obtain ⟨j, hj⟩ := List.get?_of_mem hq
        exact huniq (j + 1) q (by simpa using hj) (by omega)
      rw [hrest]
      rfl
    | succ k2 =>
      have hp : (ER.ble p.1 (.fin x) && ER.blt (.fin x) p.2) = false := by
        have := huniq 0 p rfl (by omega)
        exact Bool.not_eq_true _ |>.mp this
      unfold matchIdx
      rw [hp]
      simp only [Bool.false_eq_true, if_false]
      have hrec := ih (s + 1) k2 pk (by simpa using hget) hc
        (fun j pj hj hjk => huniq (j + 1) pj (by simpa using hj) (by omega))
      rw [hrec]
      have : s + 1 + k2 = s + (k2 + 1) := by omega
      rw [this]

/-- Claim C8 (amended).  For a distribution constructed with
`sigma = 1`, and exact numeric primitives - `tailMass` the difference of
a strictly monotone CDF-like `F` with the limits 0 at `-inf` and 1 at
`+inf`, and `qnorm` its exact two-sided inverse - the round trip
`quantile(CDF(x))` returns EXACTLY `x` for every `x` strictly inside one
of the intervals (hence certainly within any tolerance).  For
`sigma` different from 1 the relation fails outright, because `CDF`
mixes `sigma`-standardized interval masses with an unstandardized
partial mass (see the counterexample, where `CDF` exceeds 1 and
`quantile` then faults on an out-of-range interval index). -/
theorem quantile_CDF_round_trip (ops : NormalOps) (F : ER → ℚ)
    (flat : List ER) (mu x : ℚ) (k : ℕ) (a b : ER)
    (hops : ops.tailMass = fun u v => F v - F u)
    (hFn : F .ninf = 0) (hFp : F .pinf = 1)
    (hmono : ∀ u v : ER, ER.blt u v = true → F u < F v)
    (hinv : ∀ y : ℚ, ops.qnorm (F (.fin y)) = y)
    (hrefl : ∀ p : ℚ, ops.qnorm (1 - p) = - ops.qnorm p)
    (hget : (truncated_gaussian ops flat mu 1).intervals.get? k = some (a, b))
    (hax : ER.blt a (.fin x) = true) (hxb : ER.blt (.fin x) b = true) :
    Res.bind ((truncated_gaussian ops flat mu 1).CDF ops x)
      (fun c => (truncated_gaussian ops flat mu 1).quantile ops c) = .ok x := by
  set tg := truncated_gaussian ops flat mu 1 with htg
  have hmu : tg.mu = mu := by rw [htg, truncated_gaussian_mu]
  -- ordering of the constructed interval set
  have hex : ∃ ps, tg.cutoffs = flattenPairs ps := by
    refine ⟨(toPairs (List.insertionSort erle flat)).filter
      (fun p => !(ER.zeroWidth p.1 p.2)), ?_⟩
    rw [htg]
    rfl
  have hchain := sorted_flatten_pairwise tg.intervals
    (by rw [flattenPairs_intervals tg hex]; rw [htg]; exact cutoffs_sorted ops flat mu 1)
  -- weak monotonicity of F
  have hFle : ∀ u v : ER, ER.ble u v = true → F u ≤ F v := by
    intro u v h
    by_cases he : u = v
    · rw [he]
    · exact le_of_lt (hmono u v (ER.blt_of_ble_of_ne h he))
  -- the P cache in F form
  have hP : tg.P = tg.intervals.map (fun r => F (r.2.subQ mu) - F (r.1.subQ mu)) := by
    rw [htg, truncated_gaussian_P]
    have hfun : (fun r : ER × ER => specMass ops mu 1 r.1 r.2)
        = fun r : ER × ER => F (r.2.subQ mu) - F (r.1.subQ mu) := by
      funext r
      rw [specMass_sigma_one, hops]
    rw [hfun]
  have hPnn : ∀ c ∈ tg.P, 0 ≤ c := by
    rw [hP]
    intro c hc
    obtain ⟨r, hr, rfl⟩ := List.mem_map.mp hc
    have hle := hchain.1 r hr
    have hle2 : ER.ble (r.1.subQ mu) (r.2.subQ mu) = true := ble_subQ mu hle
    linarith [hFle _ _ hle2]
  -- index bookkeeping
  have hk : k < tg.intervals.length := by
    by_contra hc
    push_neg at hc
    rw [List.get?_eq_none.mpr hc] at hget
    cases hget
  have hlenP : tg.P.length = tg.intervals.length := by
    rw [hP, List.length_map]
  have hgetel : ∀ {n : ℕ} {pn : ER × ER}, tg.intervals.get? n = some pn →
      ∀ (hn : n < tg.intervals.length), tg.intervals[n] = pn := by
    intro n pn h hn
    rw [List.get?_eq_getElem?, List.getElem?_eq_getElem hn] at h
    exact Option.some_inj.mp h
  -- the partial mass t and the containing interval's mass
  set t := F (.fin (x - mu)) - F (a.subQ mu) with ht
  have hPk : tg.P.get? k = some (F (b.subQ mu) - F (a.subQ mu)) := by
    rw [hP, List.get?_map, hget]
    rfl
  have hax2 : ER.blt (a.subQ mu) (.fin (x - mu)) = true := by
    have h2 := ER.blt_subQ mu hax
    simpa [ER.subQ] using h2
  have hxb2 : ER.blt (.fin (x - mu)) (b.subQ mu) = true := by
    have h2 := ER.blt_subQ mu hxb
    simpa [ER.subQ] using h2
  have ht0 : 0 < t := by
    have := hmono _ _ hax2
    rw [ht]
    linarith
  have htPk : t < F (b.subQ mu) - F (a.subQ mu) := by
    have := hmono _ _ hxb2
    rw [ht]
    linarith
  -- only index k matches x
  have huniq : ∀ j pj, tg.intervals.get? j = some pj → j ≠ k →
      ¬((ER.ble pj.1 (.fin x) && ER.blt (.fin x) pj.2) = true) := by
    intro j pj hj hjk hcon
    rw [Bool.and_eq_true] at hcon
    have hjlen : j < tg.intervals.length := by
      by_contra hc
      push_neg at hc
      rw [List.get?_eq_none.mpr hc] at hj
      cases hj
    have hpair := List.pairwise_iff_getElem.mp hchain.2
    rcases Nat.lt_or_ge j k with hlt | hge
    · have hrel : erle (tg.intervals[j]).2 (tg.intervals[k]).1 :=
        hpair j k hjlen hk hlt
      rw [hgetel hj hjlen, hgetel hget hk] at hrel
      have h1 : ER.blt pj.2 (.fin x) = true := ER.ble_blt_trans hrel hax
      exact ER.not_ble_of_blt h1 (ER.ble_of_blt hcon.2)
    · have hkj : k < j := by omega
      have hrel : erle (tg.intervals[k]).2 (tg.intervals[j]).1 :=
        hpair k j hk hjlen hkj
      rw [hgetel hj hjlen, hgetel hget hk] at hrel
      have h1 : ER.blt (.fin x) pj.1 = true := ER.blt_ble_trans hxb hrel
      exact ER.not_ble_of_blt h1 hcon.1
  have hfi : tg.find_interval x = .ok k := by
    unfold TG.find_interval
    have hm : matchIdx x 0 tg.intervals = [k] := by
      have h2 := matchIdx_single x tg.intervals 0 k (a, b) hget
        (by rw [Bool.and_eq_true]; exact ⟨ER.ble_of_blt hax, hxb⟩) huniq
      simpa using h2
    rw [hm]
    rfl
  -- the CDF value
  have hcdf : tg.CDF ops x = .ok (((tg.P.take k).sum + t) / tg.P.sum) := by
    unfold TG.CDF
    rw [hfi]
    dsimp only
    rw [hget]
    dsimp only
    rw [hops, hmu, ht]
  -- positivity of the total mass
  have hSk : (tg.P.take (k + 1)).sum = (tg.P.take k).sum + (F (b.subQ mu) - F (a.subQ mu)) :=
    sum_take_succ _ _ _ hPk
  have hSnn : 0 ≤ (tg.P.take k).sum :=
    List.sum_nonneg (fun c hc => hPnn c (List.take_subset k tg.P hc))
  have hTub : (tg.P.take (k + 1)).sum ≤ tg.P.sum := by
    have h2 := sum_take_mono tg.P hPnn (k + 1) tg.P.length (by omega)
    rwa [List.take_length] at h2
  have hTpos : 0 < tg.P.sum := by
    rw [hSk] at hTub
    linarith
  set qv := ((tg.P.take k).sum + t) / tg.P.sum with hqv
  have hTq : tg.P.sum * qv = (tg.P.take k).sum + t := by
    rw [hqv, mul_comm, div_mul_cancel₀]
    exact ne_of_gt hTpos
  -- the hit list of the quantile ends exactly at k
  have hhits : ((List.range (cumsum0 tg.P).length).filter
      (fun j => decide ((cumsum0 tg.P).getD j 0 < tg.P.sum * qv))).getLast? = some k := by
    apply getLast_filter_range
    · rw [cumsum0_length]
      omega
    · rw [cumsum0_getD _ _ (by omega), hTq]
      simp only [decide_eq_true_eq]
      linarith
    · intro j h1 h2
      rw [cumsum0_length] at h2
      rw [cumsum0_getD _ _ h2, hTq]
      simp only [decide_eq_false_iff_not, not_lt]
      have h3 : (tg.P.take (k + 1)).sum ≤ (tg.P.take j).sum :=
        sum_take_mono tg.P hPnn (k + 1) j (by omega)
      rw [hSk] at h3
      linarith
  -- the quantile inverts exactly
  have hquant : tg.quantile ops qv = .ok x := by
    unfold TG.quantile
    dsimp only
    rw [hhits]
    dsimp only
    rw [hget]
    dsimp only
    rw [hops, hmu]
    have hinc : tg.P.sum * qv - (cumsum0 tg.P).getD k 0 = t := by
      rw [hTq, cumsum0_getD _ _ (by omega)]
      ring
    cases hmn : ER.meanNeg a b
    · simp only [Bool.false_eq_true, if_false]
      rw [hFp]
      have h4 : (1 : ℚ) - F (a.subQ mu)
          - (tg.P.sum * qv - (cumsum0 tg.P).getD k 0)
          = 1 - (F (a.subQ mu) + t) := by
        rw [hinc]
        ring
      rw [h4, hrefl]
      have h5 : F (a.subQ mu) + t = F (.fin (x - mu)) := by
        rw [ht]
        ring
      rw [h5, hinv]
      apply congrArg
      ring
    · simp only [if_true]
      rw [hFn]
      have h4 : F (a.subQ mu) - 0 + (tg.P.sum * qv - (cumsum0 tg.P).getD k 0)
          = F (.fin (x - mu)) := by
        rw [hinc, ht]
        ring
      rw [h4, hinv]
      apply congrArg
      ring
  rw [hcdf]
  dsimp only [Res.bind]
  exact hquant

/-- Counterexample for C8.  With the same exact primitives but
`sigma = 100` on the single interval `(0,1)` (with `mu = 0`), the point
`x = 9/10` is strictly inside the interval, yet `CDF(9/10) = 909/19 > 1`
(the partial mass is not `sigma`-standardized while the interval mass
is), and `quantile(CDF(9/10))` faults with an out-of-range interval
index instead of recovering `x`: the round trip does not return any
value at all, let alone one within `1e-6` of `x`. -/
theorem round_trip_sigma_cex :
    ER.blt (.fin 0) (.fin (9 / 10)) = true
    ∧ ER.blt (.fin (9 / 10)) (.fin 1) = true
    ∧ (truncated_gaussian ops0 [.fin 0, .fin 1] 0 100).intervals.get? 0
        = some (.fin 0, .fin 1)
    ∧ (truncated_gaussian ops0 [.fin 0, .fin 1] 0 100).CDF ops0 (9 / 10)
        = .ok (909 / 19)
    ∧ ((909 : ℚ) / 19) > 1
    ∧ Res.bind ((truncated_gaussian ops0 [.fin 0, .fin 1] 0 100).CDF ops0 (9 / 10))
        (fun c => (truncated_gaussian ops0 [.fin 0, .fin 1] 0 100).quantile ops0 c)
      = .err .indexErr := by
  refine ⟨by decide, by decide, by decide, by decide, by decide, by decide⟩

/-- Witness for C8: with the exact primitives `ops0` (whose laws are
discharged by `F0_lt`, `qn0_F0` and `qn0_reflect`), on the interval
`(1,3)` with `mu = 0`, `sigma = 1`, the round trip at the interior point
`x = 2` returns exactly 2. -/
theorem quantile_CDF_round_trip_witness :
    Res.bind ((truncated_gaussian ops0 [.fin 1, .fin 3] 0 1).CDF ops0 2)
      (fun c => (truncated_gaussian ops0 [.fin 1, .fin 3] 0 1).quantile ops0 c)
      = .ok 2 :=
  quantile_CDF_round_trip ops0 F0 [.fin 1, .fin 3] 0 2 0 (.fin 1) (.fin 3)
    rfl rfl rfl (fun u v h => F0_lt h) (fun y => qn0_F0 y) (fun p => qn0_reflect p)
    (by decide) (by decide) (by decide)

end ConcreteEvaluation
